import Mathlib

/-!
Verification of the path-planning core of the Smart-Warehousing repository
(`src/Dijkstra.py`).

The Python module is shallowly embedded as follows.

* Python dicts are association lists (`List (Char × β)`): assignment to an
  existing key replaces the value in place, assignment to a fresh key appends
  it at the end, exactly as CPython dicts preserve insertion order.
* `self.graph` is a `defaultdict(dict)`: reading the adjacency of a missing
  key *inserts* that key with an empty adjacency.  Every operation that can
  perform such a read therefore threads the graph state and returns it.
* Python's `float('infinity')` distances are `ENat` (`WithTop ℕ`) values.
* The `heapq` priority queue is a list of `(distance, node)` pairs from which
  the lexicographically least pair is popped (Python compares the tuples
  lexicographically; equal tuples are identical, so which duplicate is removed
  is irrelevant).
* Uncaught Python exceptions (`KeyError`, `IndexError`) are `Option.none`;
  the `while` loops of `dijkstra` and `reconstruct_path` are given explicit
  fuel, and `none` on fuel exhaustion.  The dijkstra loop pops one entry per
  iteration and pushes only on strict distance decrease, so on the fixed
  15-node topology the fuel `1000` is far beyond the iteration count.
* The `lru_cache`d recursion `dp(visited, current)` of `find_optimal_path` is
  embedded as a recursion on `remaining = target_set - visited`; the
  `frozenset` iteration order (a fixed, insertion-independent function of the
  set in CPython) is modelled as the sorted order of the deduplicated target
  list, likewise a fixed function of the set.
-/

/-- Association-list lookup: first entry whose key matches, as Python dict
subscript (the tables built here never hold duplicate keys). -/
def lookupA {β : Type} : List (Char × β) → Char → Option β
  | [], _ => none
  | (k, v) :: rest, k' => if k = k' then some v else lookupA rest k'

/-- Association-list assignment, Python dict semantics: replace in place if
the key is present, otherwise append at the end. -/
def updateA {β : Type} : List (Char × β) → Char → β → List (Char × β)
  | [], k, v => [(k, v)]
  | (k0, v0) :: rest, k, v =>
    if k0 = k then (k, v) :: rest else (k0, v0) :: updateA rest k v

/-- The planner's graph: a dict from location to its adjacency dict
(neighbour ↦ positive edge weight). -/
abbrev Graph := List (Char × List (Char × Nat))

/-- Key list of a dict (Python `for node in self.graph`). -/
def nodes (g : Graph) : List Char := g.map Prod.fst

/-- `self.graph[u][v] = w` including the `defaultdict` creation of `u`'s
adjacency dict when `u` is missing. -/
def insEdge (g : Graph) (u v : Char) (w : Nat) : Graph :=
  match lookupA g u with
  | none => g ++ [(u, [(v, w)])]
  | some adj => updateA g u (updateA adj v w)

/-- `GraphPathPlanner.add_edge`: the two symmetric assignments
`self.graph[u][v] = weight; self.graph[v][u] = weight`.  The source performs
no validation of the weight. -/
def addEdge (g : Graph) (u v : Char) (w : Nat) : Graph :=
  insEdge (insEdge g u v w) v u w

/-- The edge list of `GraphPathPlanner._initialize_graph`. -/
def initEdges : List (Char × Char × Nat) :=
  [('A', 'B', 1), ('B', 'C', 1), ('C', 'D', 1), ('D', 'E', 1),
   ('F', 'G', 1), ('G', 'H', 1), ('H', 'I', 1), ('I', 'J', 1),
   ('K', 'L', 1), ('L', 'M', 1), ('M', 'N', 1), ('N', 'O', 1),
   ('A', 'F', 2), ('F', 'K', 2), ('E', 'J', 1), ('J', 'O', 2)]

/-- The graph built by `GraphPathPlanner.__init__`. -/
def gBuilt : Graph :=
  initEdges.foldl (fun g e => addEdge g e.1 e.2.1 e.2.2) []

/-- The module-level `adjacency_matrix` literal: the direction table mapping
an ordered pair of adjacent locations to a direction code
(0 = up, 1 = down, 2 = left, 3 = right). -/
def dirTable : Graph :=
  [('E', [('D', 1), ('J', 3)]),
   ('J', [('E', 2), ('O', 3), ('I', 1)]),
   ('O', [('J', 2), ('N', 1)]),
   ('D', [('C', 1), ('E', 0)]),
   ('I', [('J', 0), ('H', 1)]),
   ('N', [('O', 0), ('M', 1)]),
   ('C', [('D', 0), ('B', 1)]),
   ('H', [('I', 0), ('G', 1)]),
   ('M', [('L', 1), ('N', 0)]),
   ('B', [('C', 0), ('A', 1)]),
   ('G', [('H', 0), ('F', 1)]),
   ('L', [('M', 0), ('K', 1)]),
   ('A', [('B', 0), ('F', 3)]),
   ('F', [('A', 2), ('G', 0), ('K', 3)]),
   ('K', [('L', 0), ('F', 2)])]

/-- Two-level dict lookup `table[u][v]`. -/
def lookup2 (g : Graph) (u v : Char) : Option Nat :=
  match lookupA g u with
  | none => none
  | some adj => lookupA adj v

/-- Distance table of one `dijkstra` run: location ↦ tentative distance,
`⊤` standing for `float('infinity')`. -/
abbrev DistTable := List (Char × ENat)

/-- Strict lexicographic order on heap entries, as Python compares the
`(distance, node)` tuples. -/
def lexLt (a b : Nat × Char) : Bool :=
  a.1 < b.1 || (a.1 = b.1 && a.2 < b.2)

/-- Least entry of a nonempty heap (accumulator form). -/
def minEntry : (Nat × Char) → List (Nat × Char) → Nat × Char
  | m, [] => m
  | m, x :: xs => minEntry (if lexLt x m then x else m) xs

/-- `heapq.heappop`: remove and return the least `(distance, node)` pair. -/
def popMin : List (Nat × Char) → Option ((Nat × Char) × List (Nat × Char))
  | [] => none
  | x :: xs =>
    let m := minEntry x xs
    some (m, (x :: xs).erase m)

/-- The relaxation loop `for neighbor, weight in self.graph[current].items()`:
on strict improvement update the distance and push; a missing `distances`
key would be a `KeyError` (`none`). -/
def relaxAll (d : Nat) :
    List (Char × Nat) → DistTable → List (Nat × Char) →
    Option (DistTable × List (Nat × Char))
  | [], dist, heap => some (dist, heap)
  | (v, w) :: rest, dist, heap =>
    let nd := d + w
    match lookupA dist v with
    | none => none
    | some dv =>
      if (nd : ENat) < dv then
        relaxAll d rest (updateA dist v (nd : ENat)) (heap ++ [(nd, v)])
      else relaxAll d rest dist heap

/-- The `while heap:` loop of `GraphPathPlanner.dijkstra`, with fuel.  When
the popped node is missing from the graph, `self.graph[current_node]` inserts
it with an empty adjacency (`defaultdict`). -/
def dijkstraAux :
    Nat → Graph → List (Nat × Char) → DistTable → List Char →
    Option (DistTable × Graph)
  | 0, g, heap, dist, _ => if heap.isEmpty then some (dist, g) else none
  | fuel + 1, g, heap, dist, visited =>
    match popMin heap with
    | none => some (dist, g)
    | some ((d, u), heap') =>
      if u ∈ visited then dijkstraAux fuel g heap' dist visited
      else
        match lookupA g u with
        | none => dijkstraAux fuel (g ++ [(u, [])]) heap' dist (u :: visited)
        | some adj =>
          match relaxAll d adj dist heap' with
          | none => none
          | some (dist', heap'') => dijkstraAux fuel g heap'' dist' (u :: visited)

/-- Fuel for the embedded loops; vastly more iterations than the 15-node
topology can produce (each dijkstra push strictly decreases a node's
distance, and all distances here are below 20). -/
def loopFuel : Nat := 1000

/-- `GraphPathPlanner.dijkstra`: distances initialised to `∞` over the graph
keys, the start set to `0`, then the heap loop.  Returns the distance table
and the (possibly mutated, see `defaultdict`) graph. -/
def dijkstra (g : Graph) (s : Char) : Option (DistTable × Graph) :=
  let dist0 : DistTable := g.map (fun p => (p.1, (⊤ : ENat)))
  dijkstraAux loopFuel g [(0, s)] (updateA dist0 s 0) []

/-- Result of the subset dynamic program: (remaining distance, path). -/
abbrev DResult := ENat × List Char

/-- The body of `dp`'s `for target in target_set - visited:` loop: `pending`
are the candidates still to try, `best` is `(min_dist, best_path)`,
updated on strict improvement. -/
def dpGo (dm : Char → Char → Option ENat)
    (ih : List Char → Char → Option DResult)
    (remaining : List Char) (current : Char) :
    List Char → DResult → Option DResult
  | [], best => some best
  | t :: pending, best =>
    match dm current t with
    | none => none
    | some d =>
      match ih (remaining.erase t) t with
      | none => none
      | some (rd, rp) =>
        let total := d + rd
        if total < best.1 then
          dpGo dm ih remaining current pending (total, current :: rp)
        else dpGo dm ih remaining current pending best

/-- One level of `dp`: base case `visited == target_set`
(here `remaining = []`), otherwise the candidate loop started at
`(float('infinity'), [])`. -/
def dpBody (dm : Char → Char → Option ENat)
    (ih : List Char → Char → Option DResult)
    (remaining : List Char) (current : Char) : Option DResult :=
  if remaining.isEmpty then some (0, [current])
  else dpGo dm ih remaining current remaining (⊤, [])

/-- The memoised recursion `dp(visited, current)` of `find_optimal_path`,
reformulated on `remaining = target_set - visited`; each recursive call
removes one target, so `remaining.length` fuel suffices.  (`Nat.rec` keeps
the recursion kernel-reducible.) -/
def dp (dm : Char → Char → Option ENat) (fuel : Nat) :
    List Char → Char → Option DResult :=
  Nat.rec (motive := fun _ => List Char → Char → Option DResult)
    (dpBody dm (fun _ _ => none)) (fun _ ih => dpBody dm ih) fuel

/-- The canonical list of `frozenset(targets)`: duplicates removed, in a
fixed order that depends only on the set of targets (CPython's frozenset
iteration order is likewise a function of the set alone). -/
def sortedDedup (l : List Char) : List Char :=
  l.dedup.insertionSort (fun a b => a ≤ b)

/-- The tail of the `optimized_path` loop of `find_optimal_path`: drop a node
equal to the previously kept one (`prev`). -/
def dedupConsecGo (prev : Char) : List Char → List Char
  | [] => []
  | y :: rest => if y = prev then dedupConsecGo prev rest else y :: dedupConsecGo y rest

/-- The `optimized_path` loop of `find_optimal_path`: remove consecutive
duplicate nodes. -/
def dedupConsec : List Char → List Char
  | [] => []
  | x :: rest => x :: dedupConsecGo x rest

/-- The `for node in all_nodes: distance_matrix[node] = self.dijkstra(node)`
loop, threading the graph state. -/
def buildMatrix :
    List Char → Graph → List (Char × DistTable) →
    Option (List (Char × DistTable) × Graph)
  | [], g, m => some (m, g)
  | n :: rest, g, m =>
    match dijkstra g n with
    | none => none
    | some (t, g') => buildMatrix rest g' (updateA m n t)

/-- `GraphPathPlanner.find_optimal_path`: empty target list short-circuits to
`(0, [start])`; otherwise pairwise dijkstra tables, the subset DP over the
target set, and removal of consecutive duplicates from the chosen path. -/
def findOptimalPath (g : Graph) (start : Char) (targets : List Char) :
    Option ((ENat × List Char) × Graph) :=
  if targets.isEmpty then some ((0, [start]), g)
  else
    match buildMatrix (start :: targets) g [] with
    | none => none
    | some (dmx, g') =>
      let tset := sortedDedup targets
      let dmf : Char → Char → Option ENat := fun u v =>
        match lookupA dmx u with
        | none => none
        | some t => lookupA t v
      match dp dmf tset.length tset start with
      | none => none
      | some (td, path) => some ((td, dedupConsec path), g')

/-- The `for neighbor in self.graph[current]:` scan of `reconstruct_path`:
first neighbour satisfying `distances[current] == distances[neighbor] +
weight`; `Except.error` is the `KeyError` on a missing `distances` key. -/
def scanPred (t : DistTable) (current : Char) :
    List (Char × Nat) → Except Unit (Option (Char × Nat))
  | [] => Except.ok none
  | (v, w) :: rest =>
    match lookupA t current, lookupA t v with
    | some dc, some dv =>
      if dc = dv + (w : ENat) then Except.ok (some (v, w))
      else scanPred t current rest
    | _, _ => Except.error ()

/-- The `while current != start:` loop of `reconstruct_path`, with fuel.  The
accumulator holds the path in final (reversed-Python) order.  When no
neighbour satisfies the equality the state is unchanged, matching the source
loop, which then repeats forever. -/
def reconstructAux :
    Nat → Graph → Char → DistTable → Char → List Char →
    Option (List Char × Graph)
  | 0, _, _, _, _, _ => none
  | fuel + 1, g, start, t, current, acc =>
    if current = start then some (acc, g)
    else
      match lookupA g current with
      | none => reconstructAux fuel (g ++ [(current, [])]) start t current acc
      | some adj =>
        match scanPred t current adj with
        | Except.error _ => none
        | Except.ok none => reconstructAux fuel g start t current acc
        | Except.ok (some (v, _)) => reconstructAux fuel g start t v (v :: acc)

/-- `GraphPathPlanner.reconstruct_path` (`path = [end]`, backward walk,
final reversal folded into the accumulator order). -/
def reconstructPath (g : Graph) (start e : Char) (t : DistTable) :
    Option (List Char × Graph) :=
  reconstructAux loopFuel g start t e [e]

/-- The stitching loop of `plan_path`: for each consecutive pair of tour
stops, a fresh dijkstra run and a reconstruction, appending the segment
without its last node. -/
def stitch : List Char → Graph → List Char → Option (List Char × Graph)
  | u :: v :: rest, g, acc =>
    match dijkstra g u with
    | none => none
    | some (t, g') =>
      match reconstructPath g' u v t with
      | none => none
      | some (seg, g'') => stitch (v :: rest) g'' (acc ++ seg.dropLast)
  | _, g, acc => some (acc, g)

/-- The result dict of `plan_path`. -/
structure PlanResult where
  targets : List Char
  optimal_path : List Char
  total_distance : ENat
  detailed_path : List Char
deriving DecidableEq

/-- `GraphPathPlanner.plan_path`: optimal tour, stitched detailed path, and
the final `full_path.append(path[-1])` (an `IndexError`, i.e. `none`, on an
empty tour). -/
def planPath (g : Graph) (targets : List Char) (start : Char) :
    Option (PlanResult × Graph) :=
  match findOptimalPath g start targets with
  | none => none
  | some ((td, path), g') =>
    match stitch path g' [] with
    | none => none
    | some (full, g'') =>
      match path.getLast? with
      | none => none
      | some last => some (⟨targets, path, td, full ++ [last]⟩, g'')

/-- The four motion primitives emitted by `get_action_sequence`
(the Chinese glyphs 上/下/左/右 of the source). -/
inductive Dir where
  | up : Dir
  | down : Dir
  | left : Dir
  | right : Dir
deriving DecidableEq

/-- `get_action_sequence(path, adjacency_matrix)`: one direction code per
consecutive pair; a missing table entry is a `KeyError` (`none`); a code
outside 0–3 would match no branch and append nothing. -/
def getActionSequence : List Char → Graph → Option (List Dir)
  | u :: v :: rest, tbl =>
    match lookup2 tbl u v with
    | none => none
    | some c =>
      match getActionSequence (v :: rest) tbl with
      | none => none
      | some tail =>
        if c = 0 then some (Dir.up :: tail)
        else if c = 1 then some (Dir.down :: tail)
        else if c = 2 then some (Dir.left :: tail)
        else if c = 3 then some (Dir.right :: tail)
        else some tail
  | _, _ => some []

/-! ### Walks and costs in a graph -/

/-- `(u, v)` is a directed edge of `g`. -/
def Adj (g : Graph) (u v : Char) : Prop := (lookup2 g u v).isSome = true

instance (g : Graph) (u v : Char) : Decidable (Adj g u v) :=
  inferInstanceAs (Decidable ((lookup2 g u v).isSome = true))

/-- A walk: every consecutive pair is an edge. -/
def IsWalk (g : Graph) (p : List Char) : Prop := List.Chain' (Adj g) p

instance (g : Graph) (p : List Char) : Decidable (IsWalk g p) :=
  inferInstanceAs (Decidable (List.Chain' (Adj g) p))

/-- Sum of edge weights along a list of locations (⊤ on a missing edge; on a
genuine walk every lookup succeeds). -/
def walkCost (g : Graph) : List Char → ENat
  | u :: v :: rest =>
    (match lookup2 g u v with
     | none => (⊤ : ENat)
     | some w => (w : ENat)) + walkCost g (v :: rest)
  | _ => 0

/-- A walk from `a` to `b`. -/
def IsWalkFromTo (g : Graph) (a b : Char) (p : List Char) : Prop :=
  p.head? = some a ∧ p.getLast? = some b ∧ IsWalk g p

/-- Value of a distance table at a location (`⊤` when absent). -/
def tval (t : DistTable) (v : Char) : ENat := (lookupA t v).getD ⊤

/-- Distance read off a dijkstra table of `gBuilt`. -/
def dijDist (u v : Char) : ENat :=
  match dijkstra gBuilt u with
  | some (t, _) => tval t v
  | none => ⊤

/-- Sum of `D`-distances along consecutive pairs of a stop sequence. -/
def chainCost (d : Char → Char → ENat) : List Char → ENat
  | u :: v :: rest => d u v + chainCost d (v :: rest)
  | _ => 0

/-! ### Association-list laws -/

theorem lookupA_updateA_self {β : Type} (m : List (Char × β)) (k : Char) (v : β) :
    lookupA (updateA m k v) k = some v := by
  induction m with
  | nil => simp [updateA, lookupA]
  | cons p rest ih =>
    by_cases h : p.1 = k
    · simp [updateA, h, lookupA]
    · simp [updateA, h, lookupA, ih]

theorem lookupA_updateA_ne {β : Type} (m : List (Char × β)) (k k' : Char) (v : β)
    (h : k' ≠ k) : lookupA (updateA m k v) k' = lookupA m k' := by
  have hk : ¬(k = k') := fun he => h he.symm
  induction m with
  | nil => simp [updateA, lookupA, hk]
  | cons p rest ih =>
    by_cases h0 : p.1 = k
    · subst h0
      simp [updateA, lookupA, hk]
    · simp [updateA, h0, lookupA, ih]

theorem lookupA_append {β : Type} (m m' : List (Char × β)) (k : Char) :
    lookupA (m ++ m') k =
      match lookupA m k with
      | some v => some v
      | none => lookupA m' k := by
  induction m with
  | nil => simp [lookupA]
  | cons p rest ih =>
    by_cases h : p.1 = k
    · simp [lookupA, h]
    · simp [lookupA, h, ih]

theorem lookupA_mem {β : Type} {m : List (Char × β)} {k : Char} {v : β}
    (h : lookupA m k = some v) : (k, v) ∈ m := by
  induction m with
  | nil => simp [lookupA] at h
  | cons p rest ih =>
    obtain ⟨k0, v0⟩ := p
    by_cases h0 : k0 = k
    · subst h0
      have hv : v0 = v := by simpa [lookupA] using h
      subst hv
      exact List.mem_cons_self _ _
    · simp only [lookupA, if_neg h0] at h
      exact List.mem_cons_of_mem _ (ih h)

theorem lookupA_eq_none {β : Type} {m : List (Char × β)} {k : Char} :
    lookupA m k = none ↔ k ∉ m.map Prod.fst := by
  induction m with
  | nil => simp [lookupA]
  | cons p rest ih =>
    by_cases h0 : p.1 = k
    · subst h0
      simp [lookupA]
    · have h0' : ¬(k = p.1) := fun he => h0 he.symm
      simp [lookupA, h0, h0', ih]

theorem lookupA_isSome_of_mem_keys {β : Type} {m : List (Char × β)} {k : Char}
    (h : k ∈ m.map Prod.fst) : (lookupA m k).isSome = true := by
  cases h' : lookupA m k with
  | none => exact absurd (lookupA_eq_none.mp h') (by simp [h])
  | some v => rfl

theorem lookupA_of_mem_nodup {β : Type} {m : List (Char × β)} {k : Char} {v : β}
    (hnd : (m.map Prod.fst).Nodup) (h : (k, v) ∈ m) : lookupA m k = some v := by
  induction m with
  | nil => simp at h
  | cons p rest ih =>
    simp only [List.map_cons, List.nodup_cons] at hnd
    rcases List.mem_cons.mp h with h1 | h1
    · subst h1; simp [lookupA]
    · have hk : p.1 ≠ k := by
        intro he
        exact hnd.1 (he ▸ (List.mem_map.mpr ⟨(k, v), h1, rfl⟩))
      simp [lookupA, hk, ih hnd.2 h1]

theorem mem_keys_of_lookupA {β : Type} {m : List (Char × β)} {k : Char} {v : β}
    (h : lookupA m k = some v) : k ∈ m.map Prod.fst :=
  List.mem_map.mpr ⟨(k, v), lookupA_mem h, rfl⟩

theorem edge_mem {g : Graph} {u v : Char} {w : Nat} (h : lookup2 g u v = some w) :
    ∃ adj, (u, adj) ∈ g ∧ (v, w) ∈ adj := by
  unfold lookup2 at h
  cases h0 : lookupA g u with
  | none => rw [h0] at h; cases h
  | some adj => rw [h0] at h; exact ⟨adj, lookupA_mem h0, lookupA_mem h⟩

/-! ### `add_edge` performs no validation (claim C8) -/

theorem lookup2_insEdge (g : Graph) (a b : Char) (w : Nat) (x y : Char) :
    lookup2 (insEdge g a b w) x y =
      if x = a ∧ y = b then some w else lookup2 g x y := by
  unfold insEdge
  cases hga : lookupA g a with
  | none =>
    unfold lookup2
    rw [lookupA_append]
    cases hgx : lookupA g x with
    | some adj =>
      have hxa : ¬(x = a) := fun he => by rw [he, hga] at hgx; cases hgx
      simp [hxa, hgx]
    | none =>
      by_cases hxa : a = x
      · subst hxa
        simp only [lookupA, if_pos rfl, hgx]
        by_cases hyb : b = y
        · subst hyb; simp [lookupA]
        · have hyb' : ¬(y = b) := fun he => hyb he.symm
          simp [lookupA, hyb, hyb']
      · have hxa' : ¬(x = a) := fun he => hxa he.symm
        simp [lookupA, hxa, hxa', hgx]
  | some adj =>
    unfold lookup2
    by_cases hxa : x = a
    · subst hxa
      rw [lookupA_updateA_self]
      simp only [true_and]
      by_cases hyb : y = b
      · subst hyb; rw [lookupA_updateA_self]; simp
      · rw [lookupA_updateA_ne adj b y w hyb]
        simp [hyb, hga]
    · rw [lookupA_updateA_ne g a x _ hxa]
      simp [hxa]

/-- C8 (counterexample): with the non-positive weight 0, `add_edge` does not
fail with `InvalidTopology`; it silently inserts both symmetric entries. -/
theorem claim_C8_cex :
    lookup2 (addEdge gBuilt 'A' 'P' 0) 'A' 'P' = some 0 ∧
    lookup2 (addEdge gBuilt 'A' 'P' 0) 'P' 'A' = some 0 := by decide

/-- C8 (amended): `add_edge(a, b, w)` performs no weight validation at all;
for every weight (positive or not) it inserts the symmetric entries a→b and
b→a, both with weight w. -/
theorem claim_C8 (g : Graph) (a b : Char) (w : Nat) :
    lookup2 (addEdge g a b w) a b = some w ∧
    lookup2 (addEdge g a b w) b a = some w := by
  unfold addEdge
  by_cases hab : a = b
  · subst hab
    simp [lookup2_insEdge]
  · have hba : ¬(b = a) := fun he => hab he.symm
    constructor
    · rw [lookup2_insEdge]
      simp only [hab, false_and, if_false, hba, and_false]
      rw [lookup2_insEdge]
      simp
    · rw [lookup2_insEdge]
      simp

/-! ### Concrete facts about the built graph and its dijkstra tables -/

/-- The distance table computed by `dijkstra` on the built graph. -/
def dTable (s : Char) : DistTable :=
  match dijkstra gBuilt s with
  | some (t, _) => t
  | none => []

theorem nodesB : nodes gBuilt =
    ['A', 'B', 'C', 'D', 'E', 'F', 'G', 'H', 'I', 'J', 'K', 'L', 'M', 'N', 'O'] := by
  decide

theorem gSym : ∀ e ∈ gBuilt, ∀ p ∈ e.2, lookup2 gBuilt p.1 e.1 = some p.2 := by decide

theorem gPos : ∀ e ∈ gBuilt, ∀ p ∈ e.2, 1 ≤ p.2 := by decide

theorem gClosed : ∀ e ∈ gBuilt, ∀ p ∈ e.2, p.1 ∈ nodes gBuilt := by decide

theorem gKeysNodup : (nodes gBuilt).Nodup := by decide

theorem gAdjNodup : ∀ e ∈ gBuilt, (e.2.map Prod.fst).Nodup := by decide

theorem dijkstraOK : ∀ s ∈ nodes gBuilt, dijkstra gBuilt s = some (dTable s, gBuilt) := by
  decide

theorem dTableKeys : ∀ s ∈ nodes gBuilt, (dTable s).map Prod.fst = nodes gBuilt := by
  decide

theorem dTableZero : ∀ s ∈ nodes gBuilt, lookupA (dTable s) s = some 0 := by decide

theorem dTableFin : ∀ s ∈ nodes gBuilt, ∀ v ∈ nodes gBuilt,
    lookupA (dTable s) v ≠ none ∧ tval (dTable s) v < (999 : ENat) := by decide

/-- The relaxation ("triangle") property of a distance table: along every
directed edge, `t[v] ≤ t[u] + w(u, v)`. -/
def relaxOK (g : Graph) (t : DistTable) : Prop :=
  ∀ e ∈ g, ∀ p ∈ e.2, tval t p.1 ≤ tval t e.1 + (p.2 : ENat)

instance (g : Graph) (t : DistTable) : Decidable (relaxOK g t) := by
  unfold relaxOK; infer_instance

/-- The predecessor property: every finitely-valued non-source entry has a
neighbour satisfying the relaxation equality `t[v] = t[n] + w(v, n)`. -/
def predOK (g : Graph) (t : DistTable) (s : Char) : Prop :=
  ∀ e ∈ t, e.2 ≠ ⊤ → e.1 ≠ s →
    ∃ p ∈ (lookupA g e.1).getD [], tval t p.1 + (p.2 : ENat) = e.2

instance (g : Graph) (t : DistTable) (s : Char) : Decidable (predOK g t s) := by
  unfold predOK; infer_instance

theorem dTableRelax : ∀ s ∈ nodes gBuilt, relaxOK gBuilt (dTable s) := by decide

theorem dTablePred : ∀ s ∈ nodes gBuilt, predOK gBuilt (dTable s) s := by decide

/-! ### Claims settled by direct evaluation -/

/-- A disconnected graph built with `add_edge`: two separate components
`A—B` and `C—D`. -/
def gDisc : Graph := addEdge (addEdge [] 'A' 'B' 1) 'C' 'D' 1

/-- C5: the code does not implement `TargetUnreachable`.  On a planner graph
where target `C` has infinite shortest-path distance from start `A`,
`find_optimal_path('A', ['C'])` does not fail: it returns the normal value
`(infinity, [])`, an (empty) partial tour with an infinite distance. -/
theorem claim_C5 :
    (dijkstra gDisc 'A').map (fun p => tval p.1 'C') = some ⊤ ∧
    findOptimalPath gDisc 'A' ['C'] = some ((⊤, []), gDisc) := by decide

/-- A stale distance table in which every location of the built graph has
distance 0: no neighbour can satisfy `t[cur] = t[n] + w` since all weights
are positive. -/
def zeroTable : DistTable := (nodes gBuilt).map (fun v => (v, (0 : ENat)))

/-- C6: on a distance table where no neighbour satisfies the relaxation
equality, `reconstruct_path` does not fail with a typed error — its `while`
loop makes no progress and never terminates.  Whatever fuel the embedded
loop is given, it never produces a result. -/
theorem claim_C6 : ∀ fuel acc,
    reconstructAux fuel gBuilt 'A' zeroTable 'B' acc = none := by
  intro fuel
  induction fuel with
  | zero => intro _; rfl
  | succ n ih =>
    intro acc
    have hstep : reconstructAux (n + 1) gBuilt 'A' zeroTable 'B' acc =
        reconstructAux n gBuilt 'A' zeroTable 'B' acc := rfl
    rw [hstep]
    exact ih acc

/-- C7 (counterexample): running `dijkstra` on a location identifier that was
never added to the graph mutates the graph — the `defaultdict` inserts the
key `Z` with an empty adjacency dict. -/
theorem claim_C7_cex :
    (dijkstra gBuilt 'Z').map Prod.snd = some (gBuilt ++ [('Z', [])]) ∧
    gBuilt ++ [('Z', [])] ≠ gBuilt := by decide

/-- C9: with an empty target list the planner degenerates as specified:
`find_optimal_path` returns distance 0 and tour `[start]`, `plan_path`
returns detailed path `[start]`, and the command sequence is empty. -/
theorem claim_C9 (start : Char) (_hs : start ∈ nodes gBuilt) :
    findOptimalPath gBuilt start [] = some ((0, [start]), gBuilt) ∧
    planPath gBuilt [] start = some (⟨[], [start], 0, [start]⟩, gBuilt) ∧
    getActionSequence [start] dirTable = some [] :=
  ⟨rfl, rfl, rfl⟩

/-- C9 witness at the home location `A`. -/
theorem claim_C9_witness :
    findOptimalPath gBuilt 'A' [] = some ((0, ['A']), gBuilt) ∧
    planPath gBuilt [] 'A' = some (⟨[], ['A'], 0, ['A']⟩, gBuilt) ∧
    getActionSequence ['A'] dirTable = some [] :=
  claim_C9 'A' (by decide)

/-! ### Walk machinery: lower and upper bounds from table properties -/

/-- Weight of one step (⊤ on a non-edge). -/
def eW (g : Graph) (u v : Char) : ENat :=
  match lookup2 g u v with
  | none => (⊤ : ENat)
  | some w => (w : ENat)

theorem eW_eq {g : Graph} {u v : Char} {w : Nat} (h : lookup2 g u v = some w) :
    eW g u v = (w : ENat) := by simp [eW, h]

theorem walkCost_cons (g : Graph) (u v : Char) (rest : List Char) :
    walkCost g (u :: v :: rest) = eW g u v + walkCost g (v :: rest) := by
  simp [walkCost, eW]

theorem tval_eq_of_lookup {t : DistTable} {v : Char} {x : ENat}
    (h : lookupA t v = some x) : tval t v = x := by simp [tval, h]

theorem adj_exists {g : Graph} {u v : Char} (h : Adj g u v) :
    ∃ w, lookup2 g u v = some w := by
  unfold Adj at h
  cases h0 : lookup2 g u v with
  | none => rw [h0] at h; cases h
  | some w => exact ⟨w, rfl⟩

/-- Lower bound: if a table satisfies the relaxation property along every
edge, then along any walk the end's value exceeds the start's by at most the
walk's cost. -/
theorem walk_lower {g : Graph} {t : DistTable} (hrel : relaxOK g t) :
    ∀ (p : List Char) (a b : Char), p.head? = some a → p.getLast? = some b →
      IsWalk g p → tval t b ≤ tval t a + walkCost g p := by
  intro p
  induction p with
  | nil => intro a b ha _ _; cases ha
  | cons x rest ih =>
    intro a b ha hb hw
    have hxa : x = a := by simpa using ha
    subst hxa
    cases rest with
    | nil =>
      have hxb : x = b := by simpa using hb
      subst hxb
      simp [walkCost]
    | cons y rest' =>
      rw [List.getLast?_cons_cons] at hb
      rw [IsWalk, List.chain'_cons] at hw
      obtain ⟨hxy, hw'⟩ := hw
      obtain ⟨w, hw2⟩ := adj_exists hxy
      obtain ⟨adj, hgm, ham⟩ := edge_mem hw2
      have hstep : tval t y ≤ tval t x + (w : ENat) := hrel (x, adj) hgm (y, w) ham
      have ihy : tval t b ≤ tval t y + walkCost g (y :: rest') := ih y b rfl hb hw'
      calc tval t b ≤ tval t y + walkCost g (y :: rest') := ihy
        _ ≤ (tval t x + (w : ENat)) + walkCost g (y :: rest') :=
            add_le_add_right hstep _
        _ = tval t x + ((w : ENat) + walkCost g (y :: rest')) := add_assoc _ _ _
        _ = tval t x + walkCost g (x :: y :: rest') := by
            rw [walkCost_cons, eW_eq hw2]

theorem walkCost_concat {g : Graph} :
    ∀ (p : List Char) (u v : Char), p.getLast? = some u →
      walkCost g (p ++ [v]) = walkCost g p + eW g u v := by
  intro p
  induction p with
  | nil => intro u v h; cases h
  | cons x rest ih =>
    intro u v h
    cases rest with
    | nil =>
      have hxu : x = u := by simpa using h
      rw [← hxu]
      rw [List.singleton_append, walkCost_cons]
      simp [walkCost]
    | cons y rest' =>
      rw [List.getLast?_cons_cons] at h
      have ihy := ih u v h
      show walkCost g (x :: y :: (rest' ++ [v])) = _
      rw [walkCost_cons]
      have hmid : walkCost g (y :: (rest' ++ [v])) =
          walkCost g (y :: rest') + eW g u v := ihy
      rw [hmid, walkCost_cons, add_assoc]

/-- Upper bound: a table with the predecessor property realises each finite
value as the cost of an actual walk from the source. -/
theorem walk_exists {g : Graph} {t : DistTable} {s : Char}
    (hnd : ∀ e ∈ g, (e.2.map Prod.fst).Nodup)
    (hsym : ∀ u v w, lookup2 g u v = some w → lookup2 g v u = some w)
    (hpos : ∀ e ∈ g, ∀ p ∈ e.2, 1 ≤ p.2)
    (hs0 : lookupA t s = some 0)
    (hpred : predOK g t s) :
    ∀ (d : Nat) (v : Char), lookupA t v = some (d : ENat) →
      ∃ p, IsWalkFromTo g s v p ∧ walkCost g p = (d : ENat) := by
  intro d
  induction d using Nat.strong_induction_on with
  | _ d ih =>
    intro v hv
    by_cases hvs : v = s
    · subst hvs
      rw [hs0] at hv
      have hd0 : (d : ENat) = 0 := by
        have := Option.some.inj hv
        exact this.symm
      have hd : d = 0 := by exact_mod_cast hd0
      subst hd
      refine ⟨[v], ⟨rfl, rfl, List.chain'_singleton v⟩, ?_⟩
      simp [walkCost]
    · have hmem : (v, (d : ENat)) ∈ t := lookupA_mem hv
      obtain ⟨p0, hp0mem, hp0eq⟩ :=
        hpred (v, (d : ENat)) hmem (by exact ENat.coe_ne_top d) hvs
      obtain ⟨u, w⟩ := p0
      cases hgv : lookupA g v with
      | none => rw [hgv] at hp0mem; cases hp0mem
      | some adj =>
        rw [hgv] at hp0mem
        simp only [Option.getD_some] at hp0mem
        have hvadj : (v, adj) ∈ g := lookupA_mem hgv
        have hback : lookup2 g v u = some w := by
          unfold lookup2
          rw [hgv]
          exact lookupA_of_mem_nodup (hnd (v, adj) hvadj) hp0mem
        have hfwd : lookup2 g u v = some w := hsym v u w hback
        have hw1 : 1 ≤ w := hpos (v, adj) hvadj (u, w) hp0mem
        have htu : tval t u + (w : ENat) = (d : ENat) := hp0eq
        have htu_ne : tval t u ≠ ⊤ := by
          intro htop
          rw [htop, top_add] at htu
          exact ENat.coe_ne_top d htu.symm
        cases hlu : lookupA t u with
        | none => exact absurd (by simp [tval, hlu]) htu_ne
        | some du =>
          have hdu : tval t u = du := tval_eq_of_lookup hlu
          rw [hdu] at htu htu_ne
          lift du to Nat using htu_ne with d'
          have hsum : d' + w = d := by exact_mod_cast htu
          have hlt : d' < d := by omega
          obtain ⟨p', ⟨hh, hl, hwk⟩, hc⟩ := ih d' hlt u hlu
          have hp'ne : p' ≠ [] := by
            intro hnil
            rw [hnil] at hh
            cases hh
          refine ⟨p' ++ [v], ⟨?_, ?_, ?_⟩, ?_⟩
          · rw [List.head?_append_of_ne_nil p' hp'ne]; exact hh
          · rw [List.getLast?_append_of_ne_nil p' (by simp)]; rfl
          · refine List.chain'_append.mpr ⟨hwk, List.chain'_singleton v, ?_⟩
            intro x hx y hy
            rw [hl] at hx
            simp only [Option.mem_def, Option.some.injEq] at hx
            simp only [List.head?_cons, Option.mem_def, Option.some.injEq] at hy
            subst hx; subst hy
            show Adj g u v
            unfold Adj
            rw [hfwd]
            rfl
          · rw [walkCost_concat p' u v hl, hc, eW_eq hfwd]
            exact_mod_cast hsum

theorem gSym2 : ∀ u v w, lookup2 gBuilt u v = some w → lookup2 gBuilt v u = some w := by
  intro u v w h
  obtain ⟨adj, hg, hm⟩ := edge_mem h
  exact gSym (u, adj) hg (v, w) hm

/-- C2: for every location `s` of the built graph, `dijkstra(s)` returns a
table defined on every location of the graph, mapping `s` to 0 and every
reachable location to the least cost over all walks from `s`; locations
without a walk from `s` keep `⊤` (on this graph the latter case is empty, as
the minimality part exhibits a walk for every location). -/
theorem claim_C2 (s : Char) (hs : s ∈ nodes gBuilt) :
    ∃ t, dijkstra gBuilt s = some (t, gBuilt) ∧
      t.map Prod.fst = nodes gBuilt ∧
      lookupA t s = some 0 ∧
      ∀ v ∈ nodes gBuilt,
        ((∃ p, IsWalkFromTo gBuilt s v p) →
          IsLeast {c : ENat | ∃ p, IsWalkFromTo gBuilt s v p ∧ walkCost gBuilt p = c}
            (tval t v)) ∧
        ((¬ ∃ p, IsWalkFromTo gBuilt s v p) → tval t v = ⊤) := by
  refine ⟨dTable s, dijkstraOK s hs, dTableKeys s hs, dTableZero s hs, ?_⟩
  intro v hv
  obtain ⟨hlk, hfin⟩ := dTableFin s hs v hv
  obtain ⟨x, hx⟩ := Option.ne_none_iff_exists'.mp hlk
  have htv : tval (dTable s) v = x := tval_eq_of_lookup hx
  have hxne : x ≠ ⊤ := by
    intro h
    rw [h] at htv
    rw [htv] at hfin
    exact absurd hfin not_top_lt
  lift x to Nat using hxne with n
  obtain ⟨p, hwalk, hcost⟩ :=
    walk_exists gAdjNodup gSym2 gPos (dTableZero s hs) (dTablePred s hs) n v hx
  constructor
  · intro _
    constructor
    · exact ⟨p, hwalk, by rw [hcost, htv]⟩
    · rintro c ⟨q, hq, rfl⟩
      have hlow := walk_lower (dTableRelax s hs) q s v hq.1 hq.2.1 hq.2.2
      have hts : tval (dTable s) s = 0 := tval_eq_of_lookup (dTableZero s hs)
      rw [hts, zero_add] at hlow
      exact hlow
  · intro hn
    exact absurd ⟨p, hwalk⟩ hn

/-- C2 witness: the shortest-distance characterisation instantiated at the
concrete start location `E`. -/
theorem claim_C2_witness :
    ∃ t, dijkstra gBuilt 'E' = some (t, gBuilt) ∧
      t.map Prod.fst = nodes gBuilt ∧
      lookupA t 'E' = some 0 ∧
      ∀ v ∈ nodes gBuilt,
        ((∃ p, IsWalkFromTo gBuilt 'E' v p) →
          IsLeast {c : ENat | ∃ p, IsWalkFromTo gBuilt 'E' v p ∧ walkCost gBuilt p = c}
            (tval t v)) ∧
        ((¬ ∃ p, IsWalkFromTo gBuilt 'E' v p) → tval t v = ⊤) :=
  claim_C2 'E' (by decide)

/-! ### The subset dynamic program solves the ordering problem exactly -/

theorem dp_zero (dm : Char → Char → Option ENat) (remaining : List Char) (current : Char) :
    dp dm 0 remaining current = dpBody dm (fun _ _ => none) remaining current := rfl

theorem dp_succ (dm : Char → Char → Option ENat) (n : Nat)
    (remaining : List Char) (current : Char) :
    dp dm (n + 1) remaining current = dpBody dm (dp dm n) remaining current := rfl

theorem dp_nil (dm : Char → Char → Option ENat) (fuel : Nat) (current : Char) :
    dp dm fuel [] current = some (0, [current]) := by
  cases fuel <;> rfl

theorem chainCost_cons (d : Char → Char → ENat) (u v : Char) (rest : List Char) :
    chainCost d (u :: v :: rest) = d u v + chainCost d (v :: rest) := rfl

theorem chainCost_ne_top {d : Char → Char → ENat} {S : List Char}
    (hfin : ∀ u ∈ S, ∀ v ∈ S, d u v ≠ ⊤) :
    ∀ p : List Char, (∀ x ∈ p, x ∈ S) → chainCost d p ≠ ⊤ := by
  intro p
  induction p with
  | nil => intro _; simp [chainCost]
  | cons u rest ih =>
    intro hsub
    cases rest with
    | nil => simp [chainCost]
    | cons v rest' =>
      rw [chainCost_cons]
      have h1 : d u v ≠ ⊤ :=
        hfin u (hsub u (by simp)) v (hsub v (by simp))
      have h2 : chainCost d (v :: rest') ≠ ⊤ :=
        ih (fun x hx => hsub x (List.mem_cons_of_mem u hx))
      exact WithTop.add_ne_top.mpr ⟨h1, h2⟩

/-- Invariant of the candidate loop of `dp`: it returns either the incoming
best or one of the candidate results, never exceeds the incoming best, and
is a lower bound on all candidates it scanned. -/
theorem dpGo_spec (dm : Char → Char → Option ENat)
    (f : List Char → Char → Option DResult)
    (remaining : List Char) (current : Char)
    (dv cF : Char → ENat) (pF : Char → List Char) :
    ∀ (pending : List Char) (best : DResult),
      (∀ t ∈ pending, dm current t = some (dv t) ∧
        f (remaining.erase t) t = some (cF t, pF t)) →
      ∃ r, dpGo dm f remaining current pending best = some r ∧
        (r = best ∨ ∃ t ∈ pending, r = (dv t + cF t, current :: pF t)) ∧
        r.1 ≤ best.1 ∧
        ∀ t ∈ pending, r.1 ≤ dv t + cF t := by
  intro pending
  induction pending with
  | nil =>
    intro best _
    exact ⟨best, rfl, Or.inl rfl, le_refl _, by simp⟩
  | cons t ps ih =>
    intro best hF
    obtain ⟨hdmv, hfv⟩ := hF t (List.mem_cons_self t ps)
    have hF' := fun t' ht' => hF t' (List.mem_cons_of_mem t ht')
    by_cases hlt : dv t + cF t < best.1
    · obtain ⟨r, hr, hor, hle, hall⟩ := ih (dv t + cF t, current :: pF t) hF'
      refine ⟨r, ?_, ?_, ?_, ?_⟩
      · simp only [dpGo, hdmv, hfv]
        rw [if_pos hlt]
        exact hr
      · rcases hor with hor | ⟨t', ht', he⟩
        · exact Or.inr ⟨t, List.mem_cons_self t ps, hor⟩
        · exact Or.inr ⟨t', List.mem_cons_of_mem t ht', he⟩
      · exact le_trans hle (le_of_lt hlt)
      · intro t' ht'
        rcases List.mem_cons.mp ht' with rfl | ht'2
        · exact hle
        · exact hall t' ht'2
    · obtain ⟨r, hr, hor, hle, hall⟩ := ih best hF'
      refine ⟨r, ?_, ?_, hle, ?_⟩
      · simp only [dpGo, hdmv, hfv]
        rw [if_neg hlt]
        exact hr
      · rcases hor with hor | ⟨t', ht', he⟩
        · exact Or.inl hor
        · exact Or.inr ⟨t', List.mem_cons_of_mem t ht', he⟩
      · intro t' ht'
        rcases List.mem_cons.mp ht' with rfl | ht'2
        · exact le_trans hle (not_lt.mp hlt)
        · exact hall t' ht'2

/-- Exact correctness of the subset DP: on a distance oracle that is total
and finite over an ambient node set, `dp` returns the cost of an optimal
ordering of the remaining targets together with that ordering, and no
permutation does better. -/
theorem dp_correct (dm : Char → Char → Option ENat) (d : Char → Char → ENat)
    (S : List Char)
    (hdm : ∀ u ∈ S, ∀ v ∈ S, dm u v = some (d u v))
    (hfin : ∀ u ∈ S, ∀ v ∈ S, d u v ≠ ⊤) :
    ∀ (fuel : Nat) (remaining : List Char) (current : Char),
      remaining.length ≤ fuel → remaining.Nodup → current ∈ S →
      (∀ x ∈ remaining, x ∈ S) →
      ∃ perm, perm.Perm remaining ∧
        dp dm fuel remaining current =
          some (chainCost d (current :: perm), current :: perm) ∧
        ∀ q, q.Perm remaining →
          chainCost d (current :: perm) ≤ chainCost d (current :: q) := by
  intro fuel
  induction fuel with
  | zero =>
    intro remaining current hlen _ _ _
    have hnil : remaining = [] := List.length_eq_zero.mp (Nat.le_zero.mp hlen)
    subst hnil
    refine ⟨[], List.Perm.refl _, by rw [dp_nil]; rfl, ?_⟩
    intro q hq
    rw [hq.eq_nil]
  | succ n ihf =>
    intro remaining current hlen hnd hcur hsub
    cases remaining with
    | nil =>
      refine ⟨[], List.Perm.refl _, by rw [dp_nil]; rfl, ?_⟩
      intro q hq
      rw [hq.eq_nil]
    | cons t0 rest =>
      have hmem0 : t0 ∈ t0 :: rest := List.mem_cons_self t0 rest
      have H : ∀ t : Char, ∃ perm : List Char, t ∈ t0 :: rest →
          (perm.Perm ((t0 :: rest).erase t) ∧
           dp dm n ((t0 :: rest).erase t) t =
             some (chainCost d (t :: perm), t :: perm) ∧
           ∀ q, q.Perm ((t0 :: rest).erase t) →
             chainCost d (t :: perm) ≤ chainCost d (t :: q)) := by
        intro t
        by_cases ht : t ∈ t0 :: rest
        · obtain ⟨perm, h1, h2, h3⟩ := ihf ((t0 :: rest).erase t) t
            (by rw [List.length_erase_of_mem ht]; simp only [List.length_cons] at hlen ⊢; omega)
            (hnd.erase t) (hsub t ht)
            (fun x hx => hsub x (List.mem_of_mem_erase hx))
          exact ⟨perm, fun _ => ⟨h1, h2, h3⟩⟩
        · exact ⟨[], fun hm => absurd hm ht⟩
      choose F hF using H
      obtain ⟨r, hr, hor, _, hall⟩ :=
        dpGo_spec dm (dp dm n) (t0 :: rest) current
          (fun t => d current t) (fun t => chainCost d (t :: F t)) (fun t => t :: F t)
          (t0 :: rest) (⊤, [])
          (fun t ht => ⟨hdm current hcur t (hsub t ht), (hF t ht).2.1⟩)
      have hsubF : ∀ t, t ∈ t0 :: rest → ∀ x ∈ t :: F t, x ∈ S := by
        intro t ht x hx
        rcases List.mem_cons.mp hx with rfl | hx
        · exact hsub x ht
        · exact hsub x (List.mem_of_mem_erase (((hF t ht).1.mem_iff).mp hx))
      have hcand_fin : ∀ t, t ∈ t0 :: rest →
          d current t + chainCost d (t :: F t) ≠ ⊤ := by
        intro t ht
        refine WithTop.add_ne_top.mpr ⟨hfin current hcur t (hsub t ht), ?_⟩
        exact chainCost_ne_top hfin (t :: F t) (hsubF t ht)
      have hne : r ≠ ((⊤ : ENat), ([] : List Char)) := by
        intro he
        have hb := hall t0 hmem0
        rw [he] at hb
        exact hcand_fin t0 hmem0 (top_le_iff.mp hb)
      rcases hor with he | ⟨t, ht, he⟩
      · exact absurd he hne
      refine ⟨t :: F t, ?_, ?_, ?_⟩
      · exact ((hF t ht).1.cons t).trans (List.perm_cons_erase ht).symm
      · have hdp : dp dm (n + 1) (t0 :: rest) current =
            dpGo dm (dp dm n) (t0 :: rest) current (t0 :: rest) (⊤, []) := rfl
        rw [hdp, hr, he]
        rfl
      · intro q hq
        cases q with
        | nil => exact absurd hq.symm.eq_nil (by simp)
        | cons t' q' =>
          have ht' : t' ∈ t0 :: rest := hq.subset (List.mem_cons_self t' q')
          have hq' : q'.Perm ((t0 :: rest).erase t') :=
            (hq.trans (List.perm_cons_erase ht')).cons_inv
          have hstep : chainCost d (current :: t :: F t) = r.1 := by rw [he]; rfl
          calc chainCost d (current :: t :: F t) = r.1 := hstep
            _ ≤ d current t' + chainCost d (t' :: F t') := hall t' ht'
            _ ≤ d current t' + chainCost d (t' :: q') :=
                add_le_add_left ((hF t' ht').2.2 q' hq') _
            _ = chainCost d (current :: t' :: q') := rfl

/-! ### From the DP to `find_optimal_path` -/

theorem dijDist_eq {u : Char} (hu : u ∈ nodes gBuilt) (v : Char) :
    dijDist u v = tval (dTable u) v := by
  unfold dijDist
  rw [dijkstraOK u hu]

theorem dijDist_ne_top : ∀ u ∈ nodes gBuilt, ∀ v ∈ nodes gBuilt, dijDist u v ≠ ⊤ := by
  intro u hu v hv
  rw [dijDist_eq hu]
  exact ne_top_of_lt (dTableFin u hu v hv).2

theorem dTable_lookup_eq {u v : Char} (hu : u ∈ nodes gBuilt) (hv : v ∈ nodes gBuilt) :
    lookupA (dTable u) v = some (dijDist u v) := by
  obtain ⟨hne, _⟩ := dTableFin u hu v hv
  obtain ⟨x, hx⟩ := Option.ne_none_iff_exists'.mp hne
  rw [hx, dijDist_eq hu, tval_eq_of_lookup hx]

theorem sortedDedup_perm (ts : List Char) : (sortedDedup ts).Perm ts.dedup :=
  List.perm_insertionSort _ ts.dedup

theorem mem_sortedDedup {x : Char} {ts : List Char} :
    x ∈ sortedDedup ts ↔ x ∈ ts := by
  rw [(sortedDedup_perm ts).mem_iff, List.mem_dedup]

theorem sortedDedup_nodup (ts : List Char) : (sortedDedup ts).Nodup :=
  (sortedDedup_perm ts).nodup_iff.mpr (List.nodup_dedup ts)

theorem buildMatrix_spec :
    ∀ (l : List Char) (m : List (Char × DistTable)),
      (∀ n ∈ l, n ∈ nodes gBuilt) →
      ∃ mtx, buildMatrix l gBuilt m = some (mtx, gBuilt) ∧
        ∀ u : Char, lookupA mtx u =
          if u ∈ l then some (dTable u) else lookupA m u := by
  intro l
  induction l with
  | nil =>
    intro m _
    refine ⟨m, rfl, ?_⟩
    intro u
    simp
  | cons n0 rest ih =>
    intro m hsub
    have hd : dijkstra gBuilt n0 = some (dTable n0, gBuilt) :=
      dijkstraOK n0 (hsub n0 (by simp))
    obtain ⟨mtx, hb, hl⟩ := ih (updateA m n0 (dTable n0))
      (fun x hx => hsub x (List.mem_cons_of_mem _ hx))
    refine ⟨mtx, ?_, ?_⟩
    · simp only [buildMatrix, hd]
      exact hb
    · intro u
      rw [hl u]
      by_cases hu : u ∈ n0 :: rest
      · rcases List.mem_cons.mp hu with rfl | hur
        · by_cases h2 : u ∈ rest
          · simp [hu, h2]
          · simp [hu, h2, lookupA_updateA_self]
        · simp [hu, hur]
      · have h1 : u ∉ rest := fun h => hu (List.mem_cons_of_mem _ h)
        have h2 : u ≠ n0 := fun h => hu (h ▸ List.mem_cons_self _ _)
        simp [hu, h1, lookupA_updateA_ne m n0 u _ h2]

theorem findOpt_eq_of (s t1 : Char) (ts' : List Char)
    {mtx : List (Char × DistTable)} {g' : Graph}
    (hb : buildMatrix (s :: t1 :: ts') gBuilt [] = some (mtx, g')) :
    findOptimalPath gBuilt s (t1 :: ts') =
      match dp (fun u v =>
          match lookupA mtx u with
          | none => none
          | some t => lookupA t v)
          (sortedDedup (t1 :: ts')).length (sortedDedup (t1 :: ts')) s with
      | none => none
      | some (td, path) => some ((td, dedupConsec path), g') := by
  unfold findOptimalPath
  rw [hb]
  rfl

/-- Shared specification of `find_optimal_path` on the built graph: it
returns the cost of an optimal ordering of the deduplicated target set
(cost measured by the dijkstra distances), the tour being that ordering with
consecutive duplicates removed, and no permutation costs less. -/
theorem findOpt_spec (s : Char) (ts : List Char)
    (hs : s ∈ nodes gBuilt) (hne : ts ≠ [])
    (hsub : ∀ x ∈ ts, x ∈ nodes gBuilt) :
    ∃ perm, perm.Perm (sortedDedup ts) ∧
      findOptimalPath gBuilt s ts =
        some ((chainCost dijDist (s :: perm), dedupConsec (s :: perm)), gBuilt) ∧
      ∀ q, q.Perm (sortedDedup ts) →
        chainCost dijDist (s :: perm) ≤ chainCost dijDist (s :: q) := by
  obtain ⟨t1, ts', rfl⟩ : ∃ t1 ts', ts = t1 :: ts' := by
    cases ts with
    | nil => exact absurd rfl hne
    | cons a l => exact ⟨a, l, rfl⟩
  obtain ⟨mtx, hb, hl⟩ := buildMatrix_spec (s :: t1 :: ts') []
    (by
      intro x hx
      rcases List.mem_cons.mp hx with rfl | h
      · exact hs
      · exact hsub x h)
  have hSsub : ∀ x ∈ s :: sortedDedup (t1 :: ts'), x ∈ nodes gBuilt := by
    intro x hx
    rcases List.mem_cons.mp hx with rfl | h
    · exact hs
    · exact hsub x (mem_sortedDedup.mp h)
  have hdm : ∀ u ∈ s :: sortedDedup (t1 :: ts'), ∀ v ∈ s :: sortedDedup (t1 :: ts'),
      (fun u v =>
        match lookupA mtx u with
        | none => none
        | some t => lookupA t v) u v = some (dijDist u v) := by
    intro u hu v hv
    have humem : u ∈ s :: t1 :: ts' := by
      rcases List.mem_cons.mp hu with rfl | h
      · exact List.mem_cons_self _ _
      · exact List.mem_cons_of_mem _ (mem_sortedDedup.mp h)
    have hmu : lookupA mtx u = some (dTable u) := by rw [hl u, if_pos humem]
    simp only [hmu]
    exact dTable_lookup_eq (hSsub u hu) (hSsub v hv)
  have hfin : ∀ u ∈ s :: sortedDedup (t1 :: ts'), ∀ v ∈ s :: sortedDedup (t1 :: ts'),
      dijDist u v ≠ ⊤ :=
    fun u hu v hv => dijDist_ne_top u (hSsub u hu) v (hSsub v hv)
  obtain ⟨perm, hperm, hdp, hmin⟩ :=
    dp_correct _ dijDist (s :: sortedDedup (t1 :: ts')) hdm hfin
      (sortedDedup (t1 :: ts')).length (sortedDedup (t1 :: ts')) s
      (le_refl _) (sortedDedup_nodup _) (List.mem_cons_self _ _)
      (fun x hx => List.mem_cons_of_mem _ hx)
  refine ⟨perm, hperm, ?_, hmin⟩
  rw [findOpt_eq_of s t1 ts' hb, hdp]

/-- C1: for a start location and a non-empty target list over the built
graph, `find_optimal_path` returns the sum of the pairwise dijkstra
distances along its chosen visiting order `start :: perm` (the returned tour
being that order with consecutive duplicates removed), and no permutation of
the deduplicated target set yields a strictly smaller sum. -/
theorem claim_C1 (s : Char) (ts : List Char) (hs : s ∈ nodes gBuilt)
    (hne : ts ≠ []) (hsub : ∀ x ∈ ts, x ∈ nodes gBuilt) :
    ∃ (d : ENat) (perm : List Char),
      perm.Perm ts.dedup ∧
      findOptimalPath gBuilt s ts = some ((d, dedupConsec (s :: perm)), gBuilt) ∧
      d = chainCost dijDist (s :: perm) ∧
      ∀ q, q.Perm ts.dedup → d ≤ chainCost dijDist (s :: q) := by
  obtain ⟨perm, hperm, heq, hmin⟩ := findOpt_spec s ts hs hne hsub
  refine ⟨chainCost dijDist (s :: perm), perm,
    hperm.trans (sortedDedup_perm ts), heq, rfl, ?_⟩
  intro q hq
  exact hmin q (hq.trans (sortedDedup_perm ts).symm)

/-- C1 witness at the concrete request start `A`, targets `[C]`. -/
theorem claim_C1_witness :
    ∃ (d : ENat) (perm : List Char),
      perm.Perm (['C'].dedup) ∧
      findOptimalPath gBuilt 'A' ['C'] =
        some ((d, dedupConsec ('A' :: perm)), gBuilt) ∧
      d = chainCost dijDist ('A' :: perm) ∧
      ∀ q, q.Perm (['C'].dedup) → d ≤ chainCost dijDist ('A' :: q) :=
  claim_C1 'A' ['C'] (by decide) (by decide) (by decide)

/-- C10: planning is invariant under duplicate targets — the whole result of
`find_optimal_path` (distance, tour, and final graph) is unchanged when the
target list is deduplicated, because the DP ranges over the target set. -/
theorem claim_C10 (s : Char) (ts : List Char) (_hs : s ∈ nodes gBuilt)
    (hsub : ∀ x ∈ ts, x ∈ nodes gBuilt) :
    findOptimalPath gBuilt s ts = findOptimalPath gBuilt s ts.dedup := by
  cases ts with
  | nil => rfl
  | cons t1 ts' =>
    obtain ⟨d1, ts1', hd⟩ : ∃ a l, (t1 :: ts').dedup = a :: l := by
      cases h : (t1 :: ts').dedup with
      | nil =>
        have hm : t1 ∈ (t1 :: ts').dedup := List.mem_dedup.mpr (List.mem_cons_self _ _)
        rw [h] at hm
        cases hm
      | cons a l => exact ⟨a, l, rfl⟩
    obtain ⟨mtx1, hb1, hl1⟩ := buildMatrix_spec (s :: t1 :: ts') []
      (by
        intro x hx
        rcases List.mem_cons.mp hx with rfl | h
        · exact _hs
        · exact hsub x h)
    obtain ⟨mtx2, hb2, hl2⟩ := buildMatrix_spec (s :: d1 :: ts1') []
      (by
        intro x hx
        rcases List.mem_cons.mp hx with rfl | h
        · exact _hs
        · exact hsub x (List.mem_dedup.mp (hd ▸ h)))
    rw [hd, findOpt_eq_of s t1 ts' hb1, findOpt_eq_of s d1 ts1' hb2]
    have hsd : sortedDedup (d1 :: ts1') = sortedDedup (t1 :: ts') := by
      unfold sortedDedup
      rw [← hd, List.dedup_idem]
    have hdmf : (fun u v =>
        match lookupA mtx1 u with
        | none => none
        | some t => lookupA t v) =
        (fun u v =>
          match lookupA mtx2 u with
          | none => none
          | some t => lookupA t v) := by
      funext u v
      have hmemiff : u ∈ s :: t1 :: ts' ↔ u ∈ s :: d1 :: ts1' := by
        rw [← hd]
        simp [List.mem_dedup]
      rw [hl1 u, hl2 u, if_congr hmemiff rfl rfl]
    rw [hsd, hdmf]

/-- C10 witness at the concrete request start `A`, duplicated targets
`[B, B]`. -/
theorem claim_C10_witness :
    findOptimalPath gBuilt 'A' ['B', 'B'] =
      findOptimalPath gBuilt 'A' (['B', 'B'].dedup) :=
  claim_C10 'A' ['B', 'B'] (by decide) (by decide)

/-! ### Properties of the consecutive-duplicate removal -/

theorem dedupConsecGo_chain : ∀ (prev : Char) (l : List Char),
    List.Chain' (fun a b => a ≠ b) (prev :: dedupConsecGo prev l)
  | _, [] => List.chain'_singleton _
  | prev, y :: rest => by
    by_cases h : y = prev
    · simp only [dedupConsecGo, if_pos h]
      exact dedupConsecGo_chain prev rest
    · simp only [dedupConsecGo, if_neg h]
      refine List.chain'_cons.mpr ⟨fun he => h he.symm, ?_⟩
      exact dedupConsecGo_chain y rest

theorem dedupConsec_chain (l : List Char) :
    List.Chain' (fun a b => a ≠ b) (dedupConsec l) := by
  cases l with
  | nil => exact List.chain'_nil
  | cons x rest => exact dedupConsecGo_chain x rest

theorem dedupConsec_head (x : Char) (l : List Char) :
    (dedupConsec (x :: l)).head? = some x := rfl

theorem mem_of_dedupConsecGo : ∀ (prev : Char) (l : List Char) (x : Char),
    x ∈ dedupConsecGo prev l → x ∈ l
  | _, [], x, h => by cases h
  | prev, y :: rest, x, h => by
    by_cases hy : y = prev
    · simp only [dedupConsecGo, if_pos hy] at h
      exact List.mem_cons_of_mem _ (mem_of_dedupConsecGo prev rest x h)
    · simp only [dedupConsecGo, if_neg hy] at h
      rcases List.mem_cons.mp h with rfl | h2
      · exact List.mem_cons_self _ _
      · exact List.mem_cons_of_mem _ (mem_of_dedupConsecGo y rest x h2)

theorem dedupConsec_subset {l : List Char} {x : Char}
    (h : x ∈ dedupConsec l) : x ∈ l := by
  cases l with
  | nil => cases h
  | cons a rest =>
    rcases List.mem_cons.mp h with rfl | h2
    · exact List.mem_cons_self _ _
    · exact List.mem_cons_of_mem _ (mem_of_dedupConsecGo a rest x h2)

theorem mem_dedupConsecGo_of : ∀ (prev : Char) (l : List Char) (x : Char),
    x ∈ l → x = prev ∨ x ∈ dedupConsecGo prev l
  | _, [], x, h => by cases h
  | prev, y :: rest, x, h => by
    by_cases hy : y = prev
    · simp only [dedupConsecGo, if_pos hy]
      rcases List.mem_cons.mp h with rfl | h2
      · exact Or.inl hy
      · exact mem_dedupConsecGo_of prev rest x h2
    · simp only [dedupConsecGo, if_neg hy]
      rcases List.mem_cons.mp h with rfl | h2
      · exact Or.inr (List.mem_cons_self _ _)
      · rcases mem_dedupConsecGo_of y rest x h2 with rfl | h3
        · exact Or.inr (List.mem_cons_self _ _)
        · exact Or.inr (List.mem_cons_of_mem _ h3)

theorem mem_dedupConsec_of {l : List Char} {x : Char}
    (h : x ∈ l) : x ∈ dedupConsec l := by
  cases l with
  | nil => cases h
  | cons a rest =>
    show x ∈ a :: dedupConsecGo a rest
    rcases List.mem_cons.mp h with rfl | h2
    · exact List.mem_cons_self _ _
    · rcases mem_dedupConsecGo_of a rest x h2 with rfl | h3
      · exact List.mem_cons_self _ _
      · exact List.mem_cons_of_mem _ h3

/-! ### Gluing walks at a shared endpoint -/

theorem getLast?_cons_ne {x : Char} {l : List Char} (h : l ≠ []) :
    (x :: l).getLast? = l.getLast? := by
  cases l with
  | nil => exact absurd rfl h
  | cons y rest => exact List.getLast?_cons_cons

theorem chain_glue {R : Char → Char → Prop} (p q : List Char) (b : Char)
    (hl : p.getLast? = some b) (hq : q.head? = some b)
    (hp : List.Chain' R p) (hcq : List.Chain' R q) :
    List.Chain' R (p.dropLast ++ q) := by
  have hsplit : p.dropLast ++ [b] = p := List.dropLast_append_getLast? b hl
  rw [← hsplit] at hp
  obtain ⟨h1, _, h3⟩ := List.chain'_append.mp hp
  refine List.chain'_append.mpr ⟨h1, hcq, ?_⟩
  intro x hx y hy
  rw [hq] at hy
  simp only [Option.mem_def, Option.some.injEq] at hy
  subst hy
  exact h3 x hx b (by simp)

theorem glue_head {p q : List Char} {a b : Char} (hp : p.head? = some a)
    (hl : p.getLast? = some b) (hq : q.head? = some b) :
    (p.dropLast ++ q).head? = some a := by
  cases p with
  | nil => cases hp
  | cons x rest =>
    cases rest with
    | nil =>
      have hab : x = a := by simpa using hp
      have hxb : x = b := by simpa using hl
      simp only [List.dropLast_single, List.nil_append]
      rw [hq, ← hxb, hab]
    | cons y rest' =>
      have hab : x = a := by simpa using hp
      rw [List.dropLast_cons₂, List.cons_append, List.head?_cons, hab]

theorem head_mem_dropLast {p : List Char} {a b : Char} (hp : p.head? = some a)
    (hl : p.getLast? = some b) (hne : a ≠ b) : a ∈ p.dropLast := by
  cases p with
  | nil => cases hp
  | cons x rest =>
    cases rest with
    | nil =>
      have hab : x = a := by simpa using hp
      have hxb : x = b := by simpa using hl
      exact absurd (hab ▸ hxb) hne
    | cons y rest' =>
      have hab : x = a := by simpa using hp
      rw [List.dropLast_cons₂]
      exact hab ▸ List.mem_cons_self _ _

/-! ### Backward path reconstruction succeeds on well-formed tables -/

theorem scanPred_finds {t : DistTable} {current : Char} :
    ∀ adj : List (Char × Nat),
      (lookupA t current).isSome = true →
      (∀ p ∈ adj, (lookupA t p.1).isSome = true) →
      (∃ p ∈ adj, tval t p.1 + (p.2 : ENat) = tval t current) →
      ∃ v w, scanPred t current adj = Except.ok (some (v, w)) ∧
        (v, w) ∈ adj ∧ tval t v + (w : ENat) = tval t current := by
  intro adj
  induction adj with
  | nil =>
    intro _ _ hex
    obtain ⟨p, hp, _⟩ := hex
    cases hp
  | cons q rest ih =>
    intro hc hall hex
    obtain ⟨vq, wq⟩ := q
    obtain ⟨dc, hdc⟩ := Option.isSome_iff_exists.mp hc
    obtain ⟨dv, hdv⟩ := Option.isSome_iff_exists.mp (hall (vq, wq) (List.mem_cons_self _ _))
    by_cases hcond : dc = dv + (wq : ENat)
    · refine ⟨vq, wq, ?_, List.mem_cons_self _ _, ?_⟩
      · simp only [scanPred, hdc, hdv]
        rw [if_pos hcond]
      · rw [tval_eq_of_lookup hdv, tval_eq_of_lookup hdc]
        exact hcond.symm
    · have hex' : ∃ p ∈ rest, tval t p.1 + (p.2 : ENat) = tval t current := by
        obtain ⟨p, hp, hpe⟩ := hex
        rcases List.mem_cons.mp hp with rfl | hp2
        · exfalso
          apply hcond
          rw [tval_eq_of_lookup hdv, tval_eq_of_lookup hdc] at hpe
          exact hpe.symm
        · exact ⟨p, hp2, hpe⟩
      obtain ⟨v, w, hs, hm, he⟩ :=
        ih hc (fun p hp => hall p (List.mem_cons_of_mem _ hp)) hex'
      refine ⟨v, w, ?_, List.mem_cons_of_mem _ hm, he⟩
      simp only [scanPred, hdc, hdv]
      rw [if_neg hcond]
      exact hs

/-- The backward walk of `reconstruct_path`: under the predecessor property
it terminates, staying inside the graph, and extends the accumulated suffix
to a duplicate-free walk from `start`. -/
theorem recon_aux (t : DistTable) (s : Char)
    (hkeys : t.map Prod.fst = nodes gBuilt)
    (hpred : predOK gBuilt t s) :
    ∀ d : Nat, ∀ (fuel : Nat) (current : Char) (acc : List Char) (e : Char),
      lookupA t current = some (d : ENat) → d < fuel →
      current ∈ nodes gBuilt →
      acc.head? = some current → acc.getLast? = some e →
      IsWalk gBuilt acc → List.Chain' (fun a b => a ≠ b) acc →
      (∀ x ∈ acc, x ∈ nodes gBuilt) →
      ∃ pre, reconstructAux fuel gBuilt s t current acc = some (pre ++ acc, gBuilt) ∧
        (pre ++ acc).head? = some s ∧ (pre ++ acc).getLast? = some e ∧
        IsWalk gBuilt (pre ++ acc) ∧
        List.Chain' (fun a b => a ≠ b) (pre ++ acc) ∧
        (∀ x ∈ pre ++ acc, x ∈ nodes gBuilt) := by
  intro d
  induction d using Nat.strong_induction_on with
  | _ d ih =>
    intro fuel current acc e hcd hdf hcn hh hl hw hc hsubacc
    obtain ⟨f, rfl⟩ : ∃ f, fuel = f + 1 := ⟨fuel - 1, by omega⟩
    by_cases hcs : current = s
    · subst hcs
      refine ⟨[], ?_, by simpa using hh, by simpa using hl, by simpa using hw,
        by simpa using hc, by simpa using hsubacc⟩
      show reconstructAux (f + 1) gBuilt current t current acc = some ([] ++ acc, gBuilt)
      simp [reconstructAux]
    · have hadjs : (lookupA gBuilt current).isSome = true :=
        lookupA_isSome_of_mem_keys hcn
      obtain ⟨adj, hadjq⟩ := Option.isSome_iff_exists.mp hadjs
      have hgmem : (current, adj) ∈ gBuilt := lookupA_mem hadjq
      obtain ⟨p0, hp0m, hp0e⟩ :=
        hpred (current, (d : ENat)) (lookupA_mem hcd) (ENat.coe_ne_top d) hcs
      rw [hadjq] at hp0m
      simp only [Option.getD_some] at hp0m
      have hallsome : ∀ p ∈ adj, (lookupA t p.1).isSome = true := by
        intro p hp
        have hpn : p.1 ∈ nodes gBuilt := gClosed (current, adj) hgmem p hp
        refine lookupA_isSome_of_mem_keys ?_
        rw [hkeys]
        exact hpn
      have hcsome : (lookupA t current).isSome = true := by rw [hcd]; rfl
      obtain ⟨v, w, hscan, hvm, hveq⟩ := scanPred_finds adj hcsome hallsome
        ⟨p0, hp0m, by rw [tval_eq_of_lookup hcd]; exact hp0e⟩
      have hvn : v ∈ nodes gBuilt := gClosed (current, adj) hgmem (v, w) hvm
      have hw1 : 1 ≤ w := gPos (current, adj) hgmem (v, w) hvm
      rw [tval_eq_of_lookup hcd] at hveq
      have hvne : tval t v ≠ ⊤ := by
        intro htop
        rw [htop, top_add] at hveq
        exact ENat.coe_ne_top d hveq.symm
      obtain ⟨dv, hdv⟩ : ∃ x, lookupA t v = some x :=
        Option.isSome_iff_exists.mp (lookupA_isSome_of_mem_keys (by rw [hkeys]; exact hvn))
      rw [tval_eq_of_lookup hdv] at hveq hvne
      lift dv to Nat using hvne with d'
      have hsum : d' + w = d := by exact_mod_cast hveq
      have hlt : d' < d := by omega
      have hback : lookup2 gBuilt current v = some w := by
        unfold lookup2
        rw [hadjq]
        exact lookupA_of_mem_nodup (gAdjNodup (current, adj) hgmem) hvm
      have hfwd : lookup2 gBuilt v current = some w := gSym2 current v w hback
      have hvc : v ≠ current := by
        intro he
        rw [he, hcd] at hdv
        have : (d : ENat) = (d' : ENat) := Option.some.inj hdv
        have : d = d' := by exact_mod_cast this
        omega
      have haccne : acc ≠ [] := by
        intro hnil
        rw [hnil] at hh
        cases hh
      obtain ⟨pre', hres, hh', hl', hw', hc', hsub'⟩ :=
        ih d' hlt f v (v :: acc) e hdv (by omega) hvn rfl
          (by rw [getLast?_cons_ne haccne]; exact hl)
          (List.Chain'.cons' hw (by
            intro y hy
            have hyc : y = current := by
              rw [hh] at hy
              exact (Option.mem_some_iff.mp hy).symm
            rw [hyc]
            show Adj gBuilt v current
            unfold Adj
            rw [hfwd]
            rfl))
          (List.Chain'.cons' hc (by
            intro y hy
            have hyc : y = current := by
              rw [hh] at hy
              exact (Option.mem_some_iff.mp hy).symm
            rw [hyc]
            exact hvc))
          (by
            intro x hx
            rcases List.mem_cons.mp hx with rfl | hx2
            · exact hvn
            · exact hsubacc x hx2)
      have hstep : reconstructAux (f + 1) gBuilt s t current acc =
          reconstructAux f gBuilt s t v (v :: acc) := by
        simp only [reconstructAux, if_neg hcs, hadjq, hscan]
      have hliste : pre' ++ (v :: acc) = (pre' ++ [v]) ++ acc := by
        rw [List.append_assoc, List.singleton_append]
      refine ⟨pre' ++ [v], ?_, ?_, ?_, ?_, ?_, ?_⟩
      · rw [hstep, hres, hliste]
      · rw [← hliste]; exact hh'
      · rw [← hliste]; exact hl'
      · rw [← hliste]; exact hw'
      · rw [← hliste]; exact hc'
      · rw [← hliste]; exact hsub'

theorem reconPath_spec (u v : Char) (hu : u ∈ nodes gBuilt) (hv : v ∈ nodes gBuilt) :
    ∃ seg, reconstructPath gBuilt u v (dTable u) = some (seg, gBuilt) ∧
      seg.head? = some u ∧ seg.getLast? = some v ∧
      IsWalk gBuilt seg ∧ List.Chain' (fun a b => a ≠ b) seg ∧
      ∀ x ∈ seg, x ∈ nodes gBuilt := by
  obtain ⟨hne, hlt⟩ := dTableFin u hu v hv
  obtain ⟨x, hx⟩ := Option.ne_none_iff_exists'.mp hne
  rw [tval_eq_of_lookup hx] at hlt
  have hxne : x ≠ ⊤ := ne_top_of_lt hlt
  lift x to Nat using hxne with n
  have hn : n < 999 := by exact_mod_cast hlt
  have hfuel : n < loopFuel := by
    show n < 1000
    omega
  obtain ⟨pre, hres, hh, hl, hw, hc, hsub⟩ :=
    recon_aux (dTable u) u (dTableKeys u hu) (dTablePred u hu) n loopFuel v [v] v
      hx hfuel hv rfl rfl (List.chain'_singleton v) (List.chain'_singleton v)
      (by
        intro y hy
        rcases List.mem_cons.mp hy with rfl | hy2
        · exact hv
        · cases hy2)
  exact ⟨pre ++ [v], hres, hh, hl, hw, hc, hsub⟩

theorem stitch_spec :
    ∀ (tour : List Char) (u lastv : Char) (acc : List Char),
      tour.head? = some u → tour.getLast? = some lastv →
      (∀ x ∈ tour, x ∈ nodes gBuilt) →
      List.Chain' (fun a b => a ≠ b) tour →
      ∃ core, stitch tour gBuilt acc = some (acc ++ core, gBuilt) ∧
        (core ++ [lastv]).head? = some u ∧
        (core ++ [lastv]).getLast? = some lastv ∧
        IsWalk gBuilt (core ++ [lastv]) ∧
        List.Chain' (fun a b => a ≠ b) (core ++ [lastv]) ∧
        ∀ x ∈ tour, x ∈ core ++ [lastv] := by
  intro tour
  induction tour with
  | nil => intro u lastv acc hh; cases hh
  | cons x tail ih =>
    intro u lastv acc hh hl hsub hch
    have hxu : x = u := by simpa using hh
    subst hxu
    cases tail with
    | nil =>
      have hxl : x = lastv := by simpa using hl
      subst hxl
      refine ⟨[], ?_, rfl, rfl, List.chain'_singleton _, List.chain'_singleton _, ?_⟩
      · rw [List.append_nil]
        rfl
      · intro y hy
        simpa using hy
    | cons v rest =>
      obtain ⟨hxv, hch'⟩ := List.chain'_cons.mp hch
      have hxn : x ∈ nodes gBuilt := hsub x (by simp)
      have hvn : v ∈ nodes gBuilt := hsub v (by simp)
      have hdij : dijkstra gBuilt x = some (dTable x, gBuilt) := dijkstraOK x hxn
      obtain ⟨seg, hrec, hsh, hsl, hsw, hsc, _⟩ := reconPath_spec x v hxn hvn
      have hstep : stitch (x :: v :: rest) gBuilt acc =
          stitch (v :: rest) gBuilt (acc ++ seg.dropLast) := by
        simp only [stitch, hdij, hrec]
      obtain ⟨core', hres, hh', hl', hw', hc', hmem'⟩ :=
        ih v lastv (acc ++ seg.dropLast) rfl
          (by rw [List.getLast?_cons_cons] at hl; exact hl)
          (fun y hy => hsub y (List.mem_cons_of_mem _ hy)) hch'
      refine ⟨seg.dropLast ++ core', ?_, ?_, ?_, ?_, ?_, ?_⟩
      · rw [hstep, hres, List.append_assoc]
      · rw [List.append_assoc]
        exact glue_head hsh hsl hh'
      · rw [List.append_assoc]
        rw [List.getLast?_append_of_ne_nil seg.dropLast (by simp)]
        exact hl'
      · rw [List.append_assoc]
        exact chain_glue seg (core' ++ [lastv]) v hsl hh' hsw hw'
      · rw [List.append_assoc]
        exact chain_glue seg (core' ++ [lastv]) v hsl hh' hsc hc'
      · intro y hy
        rw [List.append_assoc]
        rcases List.mem_cons.mp hy with rfl | hy2
        · exact List.mem_append_left _ (head_mem_dropLast hsh hsl hxv)
        · exact List.mem_append_right _ (hmem' y hy2)

theorem planPath_eq_of {td : ENat} {tour : List Char} {g' : Graph}
    (s : Char) (ts : List Char)
    (hf : findOptimalPath gBuilt s ts = some ((td, tour), g')) :
    planPath gBuilt ts s =
      match stitch tour g' [] with
      | none => none
      | some (full, g'') =>
        match tour.getLast? with
        | none => none
        | some lastv => some (⟨ts, tour, td, full ++ [lastv]⟩, g'') := by
  unfold planPath
  rw [hf]

/-- Full specification of `plan_path` on the built graph: it succeeds, the
final graph is unchanged, and the detailed path is a valid walk visiting
every requested target with no two equal consecutive entries. -/
theorem planPath_spec (s : Char) (ts : List Char) (hs : s ∈ nodes gBuilt)
    (hsub : ∀ x ∈ ts, x ∈ nodes gBuilt) :
    ∃ r : PlanResult, planPath gBuilt ts s = some (r, gBuilt) ∧
      IsWalk gBuilt r.detailed_path ∧
      (∀ x ∈ ts, x ∈ r.detailed_path) ∧
      List.Chain' (fun a b => a ≠ b) r.detailed_path := by
  by_cases hne : ts = []
  · subst hne
    refine ⟨⟨[], [s], 0, [s]⟩, rfl, List.chain'_singleton _, ?_, List.chain'_singleton _⟩
    intro x hx
    cases hx
  · obtain ⟨perm, hperm, heq, _⟩ := findOpt_spec s ts hs hne hsub
    have htourh : (dedupConsec (s :: perm)).head? = some s := dedupConsec_head s perm
    have htourne : dedupConsec (s :: perm) ≠ [] := by
      intro h
      rw [h] at htourh
      cases htourh
    obtain ⟨lastv, hlast⟩ : ∃ a, (dedupConsec (s :: perm)).getLast? = some a := by
      cases h : (dedupConsec (s :: perm)).getLast? with
      | none => exact absurd (List.getLast?_eq_none_iff.mp h) htourne
      | some a => exact ⟨a, rfl⟩
    have htsub : ∀ x ∈ dedupConsec (s :: perm), x ∈ nodes gBuilt := by
      intro x hx
      rcases List.mem_cons.mp (dedupConsec_subset hx) with rfl | h2
      · exact hs
      · exact hsub x (mem_sortedDedup.mp (hperm.mem_iff.mp h2))
    obtain ⟨core, hres, _, _, hw', hc', hmem'⟩ :=
      stitch_spec (dedupConsec (s :: perm)) s lastv [] htourh hlast htsub
        (dedupConsec_chain _)
    rw [List.nil_append] at hres
    refine ⟨⟨ts, dedupConsec (s :: perm), chainCost dijDist (s :: perm),
      core ++ [lastv]⟩, ?_, hw', ?_, hc'⟩
    · rw [planPath_eq_of s ts heq, hres, hlast]
    · intro x hx
      refine hmem' x (mem_dedupConsec_of ?_)
      exact List.mem_cons_of_mem _ (hperm.mem_iff.mpr (mem_sortedDedup.mpr hx))

/-- C3: on the built graph, `plan_path` succeeds and its detailed path is a
valid walk of the graph, visits every requested target at least once, and
never repeats a location twice in a row. -/
theorem claim_C3 (s : Char) (ts : List Char) (hs : s ∈ nodes gBuilt)
    (hsub : ∀ x ∈ ts, x ∈ nodes gBuilt) :
    ∃ r : PlanResult, planPath gBuilt ts s = some (r, gBuilt) ∧
      IsWalk gBuilt r.detailed_path ∧
      (∀ x ∈ ts, x ∈ r.detailed_path) ∧
      List.Chain' (fun a b => a ≠ b) r.detailed_path :=
  planPath_spec s ts hs hsub

/-- C3 witness at the concrete request start `A`, targets `[D, K]`. -/
theorem claim_C3_witness :
    ∃ r : PlanResult, planPath gBuilt ['D', 'K'] 'A' = some (r, gBuilt) ∧
      IsWalk gBuilt r.detailed_path ∧
      (∀ x ∈ (['D', 'K'] : List Char), x ∈ r.detailed_path) ∧
      List.Chain' (fun a b => a ≠ b) r.detailed_path :=
  claim_C3 'A' ['D', 'K'] (by decide) (by decide)

/-! ### The direction table covers every edge of the built graph -/

/-- The direction table has an entry with a valid code for the pair. -/
def dirOK (u v : Char) : Prop :=
  match lookup2 dirTable u v with
  | some c => c < 4
  | none => False

instance (u v : Char) : Decidable (dirOK u v) := by
  unfold dirOK
  cases lookup2 dirTable u v with
  | none => exact instDecidableFalse
  | some c => infer_instance

theorem dirCompleteAll : ∀ e ∈ gBuilt, ∀ p ∈ e.2, dirOK e.1 p.1 := by decide

theorem dir_of_adj {u v : Char} (h : Adj gBuilt u v) :
    ∃ c, lookup2 dirTable u v = some c ∧ c < 4 := by
  obtain ⟨w, hw⟩ := adj_exists h
  obtain ⟨adj, hg, hm⟩ := edge_mem hw
  have hok := dirCompleteAll (u, adj) hg (v, w) hm
  unfold dirOK at hok
  cases hc : lookup2 dirTable u v with
  | none => rw [hc] at hok; exact hok.elim
  | some c =>
    rw [hc] at hok
    exact ⟨c, rfl, hok⟩

/-- C4: `get_action_sequence` succeeds on every valid walk of the built
graph, emitting exactly one direction code per consecutive pair; and on any
path containing a consecutive pair absent from the direction table it
fails. -/
theorem claim_C4 :
    (∀ path : List Char, IsWalk gBuilt path →
      ∃ cmds, getActionSequence path dirTable = some cmds ∧
        cmds.length = path.length - 1) ∧
    (∀ (pre post : List Char) (u v : Char),
      lookup2 dirTable u v = none →
      getActionSequence (pre ++ u :: v :: post) dirTable = none) := by
  constructor
  · intro path
    induction path with
    | nil => intro _; exact ⟨[], rfl, rfl⟩
    | cons x rest ih =>
      intro hw
      cases rest with
      | nil => exact ⟨[], rfl, rfl⟩
      | cons y rest' =>
        obtain ⟨hxy, hw'⟩ := List.chain'_cons.mp hw
        obtain ⟨tail, htail, hlen⟩ := ih hw'
        obtain ⟨c, hc, hc4⟩ := dir_of_adj hxy
        have hres : ∃ cmd, getActionSequence (x :: y :: rest') dirTable =
            some (cmd :: tail) := by
          simp only [getActionSequence, hc, htail]
          interval_cases c
          · exact ⟨Dir.up, rfl⟩
          · exact ⟨Dir.down, rfl⟩
          · exact ⟨Dir.left, rfl⟩
          · exact ⟨Dir.right, rfl⟩
        obtain ⟨cmd, hcmd⟩ := hres
        refine ⟨cmd :: tail, hcmd, ?_⟩
        simp only [List.length_cons] at hlen ⊢
        omega
  · intro pre
    induction pre with
    | nil =>
      intro post u v hc
      simp only [List.nil_append, getActionSequence, hc]
    | cons z pre' ih =>
      intro post u v hc
      have hrest := ih post u v hc
      show getActionSequence (z :: (pre' ++ u :: v :: post)) dirTable = none
      cases hp : pre' ++ u :: v :: post with
      | nil => exact absurd hp (by simp)
      | cons w ws =>
        rw [hp] at hrest
        simp only [getActionSequence, hrest]
        cases lookup2 dirTable z w <;> rfl

/-- C4 witness on the concrete valid walk `A, B, C`. -/
theorem claim_C4_witness :
    ∃ cmds, getActionSequence ['A', 'B', 'C'] dirTable = some cmds ∧
      cmds.length = (['A', 'B', 'C'] : List Char).length - 1 :=
  claim_C4.1 ['A', 'B', 'C']
    (List.chain'_cons.mpr ⟨by decide,
      List.chain'_cons.mpr ⟨by decide, List.chain'_singleton _⟩⟩)

/-! ### Frame properties: in-graph queries never mutate the graph -/

theorem scanPred_mem {t : DistTable} {current : Char} :
    ∀ {adj : List (Char × Nat)} {v : Char} {w : Nat},
      scanPred t current adj = Except.ok (some (v, w)) → (v, w) ∈ adj := by
  intro adj
  induction adj with
  | nil =>
    intro v w h
    simp [scanPred] at h
  | cons q rest ih =>
    intro v w h
    obtain ⟨vq, wq⟩ := q
    cases h1 : lookupA t current with
    | none =>
      simp only [scanPred, h1] at h
      cases h
    | some dc =>
      cases h2 : lookupA t vq with
      | none =>
        simp only [scanPred, h1, h2] at h
        cases h
      | some dv =>
        simp only [scanPred, h1, h2] at h
        by_cases hcond : dc = dv + (wq : ENat)
        · rw [if_pos hcond] at h
          have : (vq, wq) = (v, w) := by
            have := Except.ok.inj h
            exact Option.some.inj this
          rw [← this]
          exact List.mem_cons_self _ _
        · rw [if_neg hcond] at h
          exact List.mem_cons_of_mem _ (ih h)

theorem reconAux_frame :
    ∀ (fuel : Nat) (t : DistTable) (s current : Char) (acc : List Char),
      current ∈ nodes gBuilt →
      ∀ r g', reconstructAux fuel gBuilt s t current acc = some (r, g') →
        g' = gBuilt := by
  intro fuel
  induction fuel with
  | zero =>
    intro t s current acc _ r g' he
    cases he
  | succ n ih =>
    intro t s current acc hcur r g' he
    by_cases hcs : current = s
    · simp only [reconstructAux, if_pos hcs] at he
      exact (congrArg Prod.snd (Option.some.inj he)).symm
    · obtain ⟨adj, hadj⟩ :=
        Option.isSome_iff_exists.mp (lookupA_isSome_of_mem_keys hcur)
      simp only [reconstructAux, if_neg hcs, hadj] at he
      cases hsc : scanPred t current adj with
      | error e0 => rw [hsc] at he; cases he
      | ok o =>
        cases o with
        | none =>
          rw [hsc] at he
          exact ih t s current acc hcur r g' he
        | some pr =>
          obtain ⟨v, w⟩ := pr
          rw [hsc] at he
          have hvn : v ∈ nodes gBuilt :=
            gClosed (current, adj) (lookupA_mem hadj) (v, w) (scanPred_mem hsc)
          exact ih t s v (v :: acc) hvn r g' he

/-- C7 (amended): on the built graph, queries whose location arguments all
lie in the graph leave the graph unchanged — `dijkstra`,
`find_optimal_path`, the `reconstruct_path` loop, and `plan_path` can only
return the graph exactly as built. -/
theorem claim_C7 :
    (∀ s ∈ nodes gBuilt, ∀ t g', dijkstra gBuilt s = some (t, g') → g' = gBuilt) ∧
    (∀ (s : Char) (ts : List Char), s ∈ nodes gBuilt →
      (∀ x ∈ ts, x ∈ nodes gBuilt) →
      ∀ r g', findOptimalPath gBuilt s ts = some (r, g') → g' = gBuilt) ∧
    (∀ (fuel : Nat) (t : DistTable) (s e : Char) (acc : List Char),
      e ∈ nodes gBuilt →
      ∀ r g', reconstructAux fuel gBuilt s t e acc = some (r, g') → g' = gBuilt) ∧
    (∀ (s : Char) (ts : List Char), s ∈ nodes gBuilt →
      (∀ x ∈ ts, x ∈ nodes gBuilt) →
      ∀ r g', planPath gBuilt ts s = some (r, g') → g' = gBuilt) := by
  refine ⟨?_, ?_, ?_, ?_⟩
  · intro s hs t g' he
    rw [dijkstraOK s hs] at he
    exact (congrArg Prod.snd (Option.some.inj he.symm))
  · intro s ts hs hsub r g' he
    by_cases hne : ts = []
    · subst hne
      have he2 : some ((((0 : ENat), [s]) : ENat × List Char), gBuilt) = some (r, g') := he
      exact (congrArg Prod.snd (Option.some.inj he2.symm))
    · obtain ⟨perm, _, heq, _⟩ := findOpt_spec s ts hs hne hsub
      rw [heq] at he
      exact (congrArg Prod.snd (Option.some.inj he.symm))
  · intro fuel t s e acc hmem r g' he
    exact reconAux_frame fuel t s e acc hmem r g' he
  · intro s ts hs hsub r g' he
    obtain ⟨r0, heq, _, _, _⟩ := planPath_spec s ts hs hsub
    rw [heq] at he
    exact (congrArg Prod.snd (Option.some.inj he.symm))

/-- C7 witness: the frame property instantiated at the concrete in-graph
call `dijkstra(gBuilt, A)`. -/
theorem claim_C7_witness : gBuilt = gBuilt :=
  claim_C7.1 'A' (by decide) (dTable 'A') gBuilt (by decide)
